import Mathlib

/-!
Verification of the flat-JSON core of `json-editor` (`src/parser/mod.rs`,
`src/array_table.rs`).

Pointers are modelled as `List Char` (Rust `String` slices of ASCII JSON
pointers; Rust byte indexing becomes list indexing).  Stored scalar values
stay opaque `String`s.  Machine integers (`usize`, `u8`) become `Nat`; the
one place where the `u8` width is observable (`parsing_max_depth as u8` in
`change_depth`) uses an explicit `% 256`.

The sub-parser invoked by `change_depth` (`parser::parser::Parser::parse`,
whose source file is not part of the provided sources) is abstracted as a
function parameter `ParseFn`; every theorem about `change_depth` is
universally quantified over it.

Rust `todo!()` (an abort) and the reachable `panic!` in `as_array` are
modelled by the `POut.panic` constructor; a normal return `r` is
`POut.value r`.
-/

/-- JSON pointer path, one Rust byte/char per element. -/
abbrev Ptr := List Char

/-- Shorthand turning a string literal into a pointer. -/
def pstr (s : String) : Ptr := s.toList

/-- Decimal rendering of a Rust `usize` (`i.to_string()`). -/
def natChars (n : Nat) : List Char := (Nat.repr n).toList

/-- `ValueType` from `src/parser/mod.rs`. -/
inductive ValueType where
  | Array
  | Object
  | Number
  | String
  | Bool
  | Null
  | None
deriving DecidableEq, Inhabited

/-- `PointerKey` from `src/parser/mod.rs` (`depth` is a `u8`, `index` a `usize`). -/
structure PointerKey where
  pointer : Ptr
  value_type : ValueType
  depth : Nat
  index : Nat
deriving DecidableEq

/-- One element of `FlatJsonValue = Vec<(PointerKey, Option<String>)>`. -/
abbrev FlatEntry := PointerKey × Option String

/-- `PointerKey::from_pointer_and_index`. -/
def PointerKey.from_pointer_and_index (pointer : Ptr) (value_type : ValueType)
    (depth : Nat) (index : Nat) : PointerKey :=
  { pointer := pointer, value_type := value_type, depth := depth, index := index }

/-- `JsonArrayEntries` from `src/parser/mod.rs`. -/
structure JsonArrayEntries where
  entries : List FlatEntry
  index : Nat
deriving DecidableEq

/-- `JsonArrayEntries::find_node_at`. -/
def JsonArrayEntries.find_node_at (r : JsonArrayEntries) (p : Ptr) : Option FlatEntry :=
  r.entries.find? (fun e => decide (e.1.pointer = p))

/-- `Column` from `src/array_table.rs` (`name` relative pointer, `depth` a `u8`). -/
structure Column where
  name : Ptr
  depth : Nat
  value_type : ValueType
  seen_count : Nat
  order : Nat
deriving DecidableEq

/-- `ParseOptions` from `src/parser/mod.rs`.  The Rust field `prefix` is a Lean
keyword, hence the trailing underscore. -/
structure ParseOptions where
  parse_array : Bool
  max_depth : Nat
  start_parse_at : Option Ptr
  prefix_ : Option Ptr
deriving DecidableEq

/-- `ParseOptions::default()`. -/
def ParseOptions.defaults : ParseOptions :=
  { parse_array := true, max_depth := 10, start_parse_at := none, prefix_ := none }

/-- `ParseResult` from `src/parser/mod.rs`. -/
structure ParseResult where
  json : List FlatEntry
  max_json_depth : Nat
  parsing_max_depth : Nat
  root_value_type : ValueType
  started_parsing_at : Option Ptr
  parsing_prefix : Option Ptr
  root_array_len : Nat
deriving DecidableEq

/-- `ParseResult::clone_except_json` (note: `json` and `root_value_type` are
reset to their `Default` values, i.e. `[]` and `ValueType::None`). -/
def ParseResult.clone_except_json (s : ParseResult) : ParseResult :=
  { json := [], max_json_depth := s.max_json_depth,
    parsing_max_depth := s.parsing_max_depth, root_value_type := ValueType.None,
    started_parsing_at := s.started_parsing_at, parsing_prefix := s.parsing_prefix,
    root_array_len := s.root_array_len }

/-- Outcome of running a Rust function that may abort the process:
`panic` models `todo!()` / `panic!`, `value r` a normal return of `r`. -/
inductive POut (α : Type) where
  | panic : POut α
  | value : α → POut α
deriving DecidableEq

instance {ε α : Type} [DecidableEq ε] [DecidableEq α] : DecidableEq (Except ε α)
  | Except.ok a, Except.ok b =>
    if h : a = b then Decidable.isTrue (by rw [h]) else Decidable.isFalse (by simp [h])
  | Except.ok _, Except.error _ => Decidable.isFalse (by simp)
  | Except.error _, Except.ok _ => Decidable.isFalse (by simp)
  | Except.error a, Except.error b =>
    if h : a = b then Decidable.isTrue (by rw [h]) else Decidable.isFalse (by simp [h])

/-- The recursive-descent sub-parser (`parser::parser::Parser::parse` invoked on
a fresh `Lexer` over the raw-span string), abstracted as a parameter: arguments
are the raw input text, the parse options, and the initial depth counter. -/
abbrev ParseFn := String → ParseOptions → Nat → Except String ParseResult

/-- Body of the expand loop of `JSONParser::change_depth` (the
`for (k, v) in previous_parse_result.json` loop): non-`Object` entries and
`Object` entries away from the boundary are copied; an `Object` entry whose
`depth` equals `parsing_max_depth as u8` and whose value is present is
re-emitted followed by the output of a fresh sub-parse of its raw span
(with `prefix` set to the entry's pointer and initial depth `k.depth + 1`);
an `Object` entry at the boundary with value `None` is skipped.  A failing
sub-parse aborts the whole loop via `?`. -/
def JSONParser.expandLoop (pf : ParseFn) (pmd : Nat) (opts : ParseOptions) :
    List FlatEntry → Except String (List FlatEntry)
  | [] => Except.ok []
  | (k, v) :: rest =>
    if k.value_type ≠ ValueType.Object then
      (JSONParser.expandLoop pf pmd opts rest).map (fun tl => (k, v) :: tl)
    else if k.depth = pmd % 256 then
      match v with
      | some s =>
        match pf s { opts with prefix_ := some k.pointer } (k.depth + 1) with
        | Except.error e => Except.error e
        | Except.ok res =>
          (JSONParser.expandLoop pf pmd opts rest).map
            (fun tl => (k, some s) :: (res.json ++ tl))
      | none => JSONParser.expandLoop pf pmd opts rest
    else
      (JSONParser.expandLoop pf pmd opts rest).map (fun tl => (k, v) :: tl)

/-- `JSONParser::change_depth`.  The decrease branch is `todo!()`, i.e. a
panic. -/
def JSONParser.change_depth (pf : ParseFn) (previous_parse_result : ParseResult)
    (parse_options : ParseOptions) : POut (Except String ParseResult) :=
  if previous_parse_result.parsing_max_depth < parse_options.max_depth then
    match JSONParser.expandLoop pf previous_parse_result.parsing_max_depth
        parse_options previous_parse_result.json with
    | Except.error e => POut.value (Except.error e)
    | Except.ok js =>
      POut.value (Except.ok
        { json := js,
          max_json_depth := previous_parse_result.max_json_depth,
          parsing_max_depth := parse_options.max_depth,
          root_value_type := previous_parse_result.root_value_type,
          started_parsing_at := previous_parse_result.started_parsing_at,
          parsing_prefix := previous_parse_result.parsing_prefix,
          root_array_len := previous_parse_result.root_array_len })
  else if previous_parse_result.parsing_max_depth > parse_options.max_depth then
    POut.panic
  else
    POut.value (Except.ok previous_parse_result)

/-- The row prefix `started_parsing_at ++ "/" ++ i`, else
`parsing_prefix ++ "/" ++ i`, else `"/" ++ i`, exactly as computed (three
times over) in `as_array` and `change_depth_array`. -/
def JSONParser.rowPrefix (pr : ParseResult) (i : Nat) : Ptr :=
  match pr.started_parsing_at with
  | some sp => sp ++ ('/' :: natChars i)
  | none =>
    match pr.parsing_prefix with
    | some p => p ++ ('/' :: natChars i)
    | none => '/' :: natChars i

/-- The inner `loop` of `as_array`, viewed from the end of the entry vector:
entries are consumed from the back of `json` (here: the front of the reversed
stream) while they match the current row prefix. -/
def JSONParser.takeRow (p : Ptr) : List FlatEntry → List FlatEntry × List FlatEntry
  | [] => ([], [])
  | e :: rest =>
    if p.isPrefixOf e.1.pointer then
      let r := JSONParser.takeRow p rest
      (e :: r.1, r.2)
    else ([], e :: rest)

/-- `unique_keys.iter_mut().find(|c| c.eq(&&column))` followed by
`column.seen_count += 1`: bump the first column with the given name. -/
def bumpSeen (key : Ptr) : List Column → List Column
  | [] => []
  | c :: cs =>
    if c.name = key then { c with seen_count := c.seen_count + 1 } :: cs
    else c :: bumpSeen key cs

/-- Column registration in `as_array`: the candidate starts with
`seen_count = 1` and `order = unique_keys.len()`; an existing column with the
same name is bumped instead.  Entries with an empty pointer are skipped. -/
def JSONParser.registerColumnAs (p : Ptr) (cs : List Column) (k : PointerKey) :
    List Column :=
  if k.pointer = [] then cs
  else
    let key := k.pointer.drop p.length
    if cs.any (fun c => decide (c.name = key)) then bumpSeen key cs
    else cs ++ [{ name := key, depth := k.depth, value_type := k.value_type,
                  seen_count := 1, order := cs.length }]

/-- Row assembly in `as_array`: the first matched entry additionally emits the
synthetic `"<prefix>/#"` entry (type `Number`, value `i.to_string()`, the first
entry's own `depth`), and every matched entry gets `index = i`. -/
def JSONParser.buildRowEntries (p : Ptr) (i : Nat) : List FlatEntry → List FlatEntry
  | [] => []
  | (k, v) :: rest =>
    (PointerKey.from_pointer_and_index (k.pointer.take p.length ++ ['/', '#'])
        ValueType.Number k.depth i, some (Nat.repr i))
      :: ({ k with index := i }, v)
      :: rest.map (fun e => ({ e.1 with index := i }, e.2))

/-- The ordering of `impl Ord for Column` in `src/array_table.rs`:
`other.seen_count.cmp(&self.seen_count)` then `other.order.cmp(&self.order)`,
i.e. `seen_count` descending with ties broken by `order` descending.
`colR a b` says `a` sorts no later than `b`. -/
def colR (a b : Column) : Prop :=
  b.seen_count < a.seen_count ∨ (b.seen_count = a.seen_count ∧ b.order ≤ a.order)

instance : DecidableRel colR := fun a b => by unfold colR; exact inferInstance

instance : IsTotal Column colR where
  total a b := by
    unfold colR
    rcases Nat.lt_trichotomy a.seen_count b.seen_count with h | h | h
    · exact Or.inr (Or.inl h)
    · rcases Nat.le_total a.order b.order with h' | h'
      · exact Or.inr (Or.inr ⟨h, h'⟩)
      · exact Or.inl (Or.inr ⟨h.symm, h'⟩)
    · exact Or.inl (Or.inl h)

instance : IsTrans Column colR where
  trans a b c hab hbc := by
    unfold colR at *
    rcases hab with h1 | ⟨h1, h1'⟩
    · rcases hbc with h2 | ⟨h2, h2'⟩
      · exact Or.inl (Nat.lt_trans h2 h1)
      · exact Or.inl (h2 ▸ h1)
    · rcases hbc with h2 | ⟨h2, h2'⟩
      · exact Or.inl (h1 ▸ h2)
      · exact Or.inr ⟨h2.trans h1, h2'.trans h1'⟩

/-- `unique_keys.sort()`: Rust's stable sort under `Ord for Column`, modelled
as insertion sort (stable, and `order` values in `unique_keys` are pairwise
distinct, so any stable sort produces this exact sequence). -/
def sortCols (cs : List Column) : List Column := List.insertionSort colR cs

/-- The outer `for i in (0..root_array_len).rev()` loop of `as_array`,
processing the reversed entry vector.  Consing each finished row onto the
accumulator plays the role of the final `res.reverse()` of the Rust code
(rows are produced for descending `i`).  The `panic!("{} len is < {}", ..)`
branch is modelled by `POut.panic`. -/
def JSONParser.asArrayLoop (pfxFn : Nat → Ptr) :
    Nat → List FlatEntry → List JsonArrayEntries → List Column →
    POut (Except String (List JsonArrayEntries × List Column))
  | 0, _, rows, cols => POut.value (Except.ok (rows, sortCols cols))
  | c + 1, stream, rows, cols =>
    let p := pfxFn c
    let m := JSONParser.takeRow p stream
    if m.1.any (fun e => decide (e.1.pointer ≠ [] ∧ e.1.pointer.length < p.length)) then
      POut.panic
    else
      JSONParser.asArrayLoop pfxFn c m.2
        ({ entries := JSONParser.buildRowEntries p c m.1, index := c } :: rows)
        (m.1.foldl (fun cs e => JSONParser.registerColumnAs p cs e.1) cols)

/-- `JSONParser::as_array`. -/
def JSONParser.as_array (previous_parse_result : ParseResult) :
    POut (Except String (List JsonArrayEntries × List Column)) :=
  if previous_parse_result.root_value_type ≠ ValueType.Array then
    POut.value (Except.error "Parsed json root is not an array")
  else
    JSONParser.asArrayLoop (JSONParser.rowPrefix previous_parse_result)
      previous_parse_result.root_array_len previous_parse_result.json.reverse [] []

/-- Column registration in `change_depth_array`: entries with an empty pointer
or with `pointer.len() <= prefix_len` are skipped (`continue`); the candidate
starts with `seen_count = 0`; a new name containing `#` is not inserted. -/
def JSONParser.registerColumnCda (plen : Nat) (cs : List Column) (k : PointerKey) :
    List Column :=
  if k.pointer = [] then cs
  else if k.pointer.length ≤ plen then cs
  else
    let key := k.pointer.drop plen
    if cs.any (fun c => decide (c.name = key)) then bumpSeen key cs
    else if '#' ∈ key then cs
    else cs ++ [{ name := key, depth := k.depth, value_type := k.value_type,
                  seen_count := 0, order := cs.length }]

/-- The `k.index = i` assignment in `change_depth_array`; it is skipped by the
`continue` for non-empty pointers not longer than the prefix. -/
def JSONParser.cdaFixIndex (plen i : Nat) (e : FlatEntry) : FlatEntry :=
  if e.1.pointer ≠ [] ∧ e.1.pointer.length ≤ plen then e
  else ({ e.1 with index := i }, e.2)

/-- The `for i in (0..len).rev()` loop of `change_depth_array`, processing the
input rows from the back (`json_array.pop()`): the head of the reversed list is
the row at position `rest.length`.  Consing each finished row onto the
accumulator plays the role of the final `new_json_array.reverse()`. -/
def JSONParser.cdaLoop (pf : ParseFn) (prev : ParseResult) (depth : Nat) :
    List JsonArrayEntries → List JsonArrayEntries → List Column →
    POut (Except String (List JsonArrayEntries × List Column))
  | [], accRows, accCols => POut.value (Except.ok (accRows, sortCols accCols))
  | row :: rest, accRows, accCols =>
    let i := rest.length
    let pr := { prev.clone_except_json with json := row.entries }
    match JSONParser.change_depth pf pr
        { parse_array := false, max_depth := depth,
          start_parse_at := none, prefix_ := none } with
    | POut.panic => POut.panic
    | POut.value (Except.error e) => POut.value (Except.error e)
    | POut.value (Except.ok result) =>
      let plen := (JSONParser.rowPrefix prev i).length
      JSONParser.cdaLoop pf prev depth rest
        ({ entries := result.json.map (JSONParser.cdaFixIndex plen i), index := i }
          :: accRows)
        (result.json.foldl (fun cs e => JSONParser.registerColumnCda plen cs e.1) accCols)

/-- `JSONParser::change_depth_array`. -/
def JSONParser.change_depth_array (pf : ParseFn) (previous_parse_result : ParseResult)
    (json_array : List JsonArrayEntries) (depth : Nat) :
    POut (Except String (List JsonArrayEntries × List Column)) :=
  JSONParser.cdaLoop pf previous_parse_result depth json_array.reverse [] []

/-- `JSONParser::filter_non_null_column`. -/
def JSONParser.filter_non_null_column (previous_parse_result : List JsonArrayEntries)
    (pfx : Ptr) (non_null_columns : List Ptr) : List JsonArrayEntries :=
  previous_parse_result.filter (fun row =>
    non_null_columns.all (fun p =>
      match row.find_node_at (pfx ++ '/' :: natChars row.index ++ p) with
      | some e => e.2.isSome
      | none => false))

/-! ## Specification-side companion definitions -/

/-- Per-entry step of the expand path of `change_depth` as the code actually
behaves (used to state the corrected version of the expand contract):
an `Object` entry sitting exactly at the old boundary with a present raw span
is kept and followed by the sub-parse of that span; an `Object` entry at the
boundary with an absent value is dropped; every other entry — `Array`
containers included — is copied through unchanged. -/
def JSONParser.stepEntry (pf : ParseFn) (opts : ParseOptions) (pmd : Nat) :
    FlatEntry → Except String (List FlatEntry) := fun e =>
  if e.1.value_type = ValueType.Object ∧ e.1.depth = pmd % 256 then
    match e.2 with
    | some s =>
      (pf s { opts with prefix_ := some e.1.pointer } (e.1.depth + 1)).map
        (fun res => (e.1, some s) :: res.json)
    | none => Except.ok []
  else Except.ok [(e.1, e.2)]

/-- The expand path as claim C1 words it ("entries whose `value_type` is a
container (Array or Object)"): written from the claim, to be compared with
`JSONParser.change_depth`. -/
def JSONParser.stepEntryClaimC1 (pf : ParseFn) (opts : ParseOptions) (pmd : Nat) :
    FlatEntry → Except String (List FlatEntry) := fun e =>
  if (e.1.value_type = ValueType.Array ∨ e.1.value_type = ValueType.Object) ∧
      e.1.depth = pmd then
    match e.2 with
    | some s =>
      (pf s { opts with prefix_ := some e.1.pointer } (e.1.depth + 1)).map
        (fun res => (e.1, some s) :: res.json)
    | none => Except.ok [(e.1, e.2)]
  else Except.ok [(e.1, e.2)]

/-- `change_depth` in the expand direction as claim C1 states it: every
container (Array or Object) at the boundary is re-parsed, with the children
spliced right after the parent. -/
def JSONParser.changeDepthClaimC1 (pf : ParseFn) (s : ParseResult)
    (opts : ParseOptions) : Except String ParseResult :=
  (s.json.mapM (JSONParser.stepEntryClaimC1 pf opts s.parsing_max_depth)).map
    (fun chunks =>
      { json := chunks.flatten,
        max_json_depth := s.max_json_depth,
        parsing_max_depth := opts.max_depth,
        root_value_type := s.root_value_type,
        started_parsing_at := s.started_parsing_at,
        parsing_prefix := s.parsing_prefix,
        root_array_len := s.root_array_len })

/-- The column ordering claim C2 states: `seen_count` descending, ties by
`order` ascending (smaller `order` first). -/
def sortedSpecC2 (cs : List Column) : Prop :=
  cs.Pairwise (fun a b =>
    b.seen_count < a.seen_count ∨ (b.seen_count = a.seen_count ∧ a.order ≤ b.order))

instance : DecidablePred sortedSpecC2 := fun cs => by
  unfold sortedSpecC2; infer_instance

/-- Candidate data a column registration depends on: the relative key, the
entry's depth and its value type. -/
def candOf (p : Ptr) (k : PointerKey) : Ptr × Nat × ValueType :=
  (k.pointer.drop p.length, k.depth, k.value_type)

/-- Registration of one candidate, `as_array` flavour (`seen_count` starts
at 1, no `#` filter). -/
def regCand (cs : List Column) (t : Ptr × Nat × ValueType) : List Column :=
  if cs.any (fun c => decide (c.name = t.1)) then bumpSeen t.1 cs
  else cs ++ [{ name := t.1, depth := t.2.1, value_type := t.2.2,
                seen_count := 1, order := cs.length }]

/-- Candidates registered while one row of `as_array` is consumed (entries
with an empty pointer are skipped). -/
def rowCands (p : Ptr) (l : List FlatEntry) : List (Ptr × Nat × ValueType) :=
  (l.filter (fun e => decide (e.1.pointer ≠ []))).map (fun e => candOf p e.1)

/-- The rows `as_array` produces, stated directly by recursion on the element
count: element `0` comes first, element `c` consumes the matching prefix of the
(reversed) entry stream first. -/
def JSONParser.asRows (pfxFn : Nat → Ptr) : Nat → List FlatEntry → List JsonArrayEntries
  | 0, _ => []
  | c + 1, stream =>
    let m := JSONParser.takeRow (pfxFn c) stream
    JSONParser.asRows pfxFn c m.2
      ++ [{ entries := JSONParser.buildRowEntries (pfxFn c) c m.1, index := c }]

/-- All column candidates of `as_array`, in registration order (descending
element index). -/
def JSONParser.asCands (pfxFn : Nat → Ptr) : Nat → List FlatEntry →
    List (Ptr × Nat × ValueType)
  | 0, _ => []
  | c + 1, stream =>
    let m := JSONParser.takeRow (pfxFn c) stream
    rowCands (pfxFn c) m.1 ++ JSONParser.asCands pfxFn c m.2

/-! ## Concrete instances for counterexamples and witnesses -/

/-- A sub-parser that is never consulted in the scenarios it is used in. -/
def pfNone : ParseFn := fun _ _ _ => Except.error "unused"

/-- Entry `/0/a = 1` of element 0. -/
def entA : FlatEntry :=
  ({ pointer := pstr "/0/a", value_type := ValueType.Number, depth := 1, index := 0 },
   some "1")

/-- Entry `/1/b = 2` of element 1. -/
def entB : FlatEntry :=
  ({ pointer := pstr "/1/b", value_type := ValueType.Number, depth := 1, index := 0 },
   some "2")

/-- A fully parsed two-element root array (as for input `[{"a":1},{"b":2}]`). -/
def Sab : ParseResult :=
  { json := [entA, entB], max_json_depth := 2, parsing_max_depth := 10,
    root_value_type := ValueType.Array, started_parsing_at := none,
    parsing_prefix := none, root_array_len := 2 }

/-- A deferred `Array` container at the parse boundary (as for input
`{"a":[1]}` parsed at `max_depth = 1`). -/
def entArr : FlatEntry :=
  ({ pointer := pstr "/a", value_type := ValueType.Array, depth := 1, index := 0 },
   some "[1]")

/-- Structure holding only the deferred array `/a`. -/
def Sarr : ParseResult :=
  { json := [entArr], max_json_depth := 3, parsing_max_depth := 1,
    root_value_type := ValueType.Object, started_parsing_at := none,
    parsing_prefix := none, root_array_len := 0 }

/-- Child entry `/a/0` a sub-parse of `[1]` with prefix `/a` would produce. -/
def entChild : FlatEntry :=
  ({ pointer := pstr "/a/0", value_type := ValueType.Number, depth := 2, index := 0 },
   some "1")

/-- A sub-parser that returns `entChild`, whatever it is asked. -/
def pfChild : ParseFn := fun _ _ _ =>
  Except.ok { json := [entChild], max_json_depth := 0, parsing_max_depth := 0,
              root_value_type := ValueType.Array, started_parsing_at := none,
              parsing_prefix := none, root_array_len := 1 }

/-- Default options with the requested `max_depth` (what callers build with
`ParseOptions::default().max_depth(d)`). -/
def optsD (d : Nat) : ParseOptions := { ParseOptions.defaults with max_depth := d }

/-- A single already-projected row holding `/0/a` (element 0 of `Sone`). -/
def rowA : JsonArrayEntries := { entries := [entA], index := 0 }

/-- A one-element root array parsed at depth 1 (row data in `rowA`). -/
def Sone : ParseResult :=
  { json := [entA], max_json_depth := 2, parsing_max_depth := 1,
    root_value_type := ValueType.Array, started_parsing_at := none,
    parsing_prefix := none, root_array_len := 1 }

/-- Sequential composition of a per-entry expansion step over an entry list:
the first failing step aborts, otherwise the produced chunks are concatenated
in order. -/
def flatMapExcept (step : FlatEntry → Except String (List FlatEntry)) :
    List FlatEntry → Except String (List FlatEntry)
  | [] => Except.ok []
  | e :: rest =>
    match step e with
    | Except.error msg => Except.error msg
    | Except.ok chunk =>
      match flatMapExcept step rest with
      | Except.error msg => Except.error msg
      | Except.ok tl => Except.ok (chunk ++ tl)

/-- What `change_depth pfChild Sarr (optsD 2)` actually returns: the deferred
`Array` container is copied through, not expanded. -/
def RactC1 : ParseResult :=
  { json := [entArr], max_json_depth := 3, parsing_max_depth := 2,
    root_value_type := ValueType.Object, started_parsing_at := none,
    parsing_prefix := none, root_array_len := 0 }

/-- What claim C1 says that call should return: the `Array` container at the
boundary re-parsed, its child spliced in right after it. -/
def RclC1 : ParseResult :=
  { json := [entArr, entChild], max_json_depth := 3, parsing_max_depth := 2,
    root_value_type := ValueType.Object, started_parsing_at := none,
    parsing_prefix := none, root_array_len := 0 }


/-- The rows `as_array Sab` produces. -/
def rowsAB : List JsonArrayEntries :=
  [ { entries := [ (PointerKey.from_pointer_and_index (pstr "/0/#") ValueType.Number 1 0,
                    some "0"),
                   ({ entA.1 with index := 0 }, entA.2) ], index := 0 },
    { entries := [ (PointerKey.from_pointer_and_index (pstr "/1/#") ValueType.Number 1 1,
                    some "1"),
                   ({ entB.1 with index := 1 }, entB.2) ], index := 1 } ]

/-- The column schema `as_array Sab` produces: equal `seen_count`, and the
column with the larger `order` value first. -/
def colsAB : List Column :=
  [ { name := pstr "/a", depth := 1, value_type := ValueType.Number,
      seen_count := 1, order := 1 },
    { name := pstr "/b", depth := 1, value_type := ValueType.Number,
      seen_count := 1, order := 0 } ]


/-- The single column `change_depth_array pfNone Sone [rowA] 2` produces:
`seen_count` is 0 although `/a` appears in one row. -/
def colsCda1 : List Column :=
  [ { name := pstr "/a", depth := 1, value_type := ValueType.Number,
      seen_count := 0, order := 0 } ]

/-- The single row `as_array Sone` produces. -/
def rowOneProj : JsonArrayEntries :=
  { entries := [ (PointerKey.from_pointer_and_index (pstr "/0/#") ValueType.Number 1 0,
                  some "0"),
                 entA ], index := 0 }

/-- The single column `as_array Sone` produces: the same data as in `colsCda1`,
but with `seen_count` 1. -/
def colsOne : List Column :=
  [ { name := pstr "/a", depth := 1, value_type := ValueType.Number,
      seen_count := 1, order := 0 } ]


/-- `Sab` with a non-Array root. -/
def SnotArr : ParseResult := { Sab with root_value_type := ValueType.Object }


/-- A two-element root array whose element 0 produced no entries at all
(only `/1/b` is present). -/
def Sgap : ParseResult :=
  { json := [entB], max_json_depth := 2, parsing_max_depth := 10,
    root_value_type := ValueType.Array, started_parsing_at := none,
    parsing_prefix := none, root_array_len := 2 }

/-- The rows `as_array Sgap` produces: element 0 yields an empty row without
any synthetic `/#` entry. -/
def rowsGap : List JsonArrayEntries :=
  [ { entries := [], index := 0 },
    { entries := [ (PointerKey.from_pointer_and_index (pstr "/1/#") ValueType.Number 1 1,
                    some "1"),
                   ({ entB.1 with index := 1 }, entB.2) ], index := 1 } ]

/-- The columns `as_array Sgap` produces. -/
def colsGap : List Column :=
  [ { name := pstr "/b", depth := 1, value_type := ValueType.Number,
      seen_count := 1, order := 0 } ]

/-! ## Theorems -/

theorem expandLoop_eq_flatMap (pf : ParseFn) (pmd : Nat) (opts : ParseOptions) :
    ∀ l, JSONParser.expandLoop pf pmd opts l
      = flatMapExcept (JSONParser.stepEntry pf opts pmd) l
  | [] => rfl
  | (k, v) :: rest => by
    have IH := expandLoop_eq_flatMap pf pmd opts rest
    by_cases hobj : k.value_type = ValueType.Object
    · by_cases hd : k.depth = pmd % 256
      · cases v with
        | some s =>
          simp only [JSONParser.expandLoop, JSONParser.stepEntry, flatMapExcept,
            hobj, hd, if_neg (by simp [hobj] : ¬ k.value_type ≠ ValueType.Object),
            if_pos hd, if_pos (And.intro hobj hd)]
          cases pf s { opts with prefix_ := some k.pointer } (pmd % 256 + 1) with
          | error e => simp [Except.map]
          | ok res =>
            simp only [Except.map]
            rw [IH]
            cases flatMapExcept (JSONParser.stepEntry pf opts pmd) rest <;> simp
        | none =>
          simp only [JSONParser.expandLoop, JSONParser.stepEntry, flatMapExcept,
            if_neg (by simp [hobj] : ¬ k.value_type ≠ ValueType.Object),
            if_pos hd, if_pos (And.intro hobj hd)]
          rw [IH]
          cases flatMapExcept (JSONParser.stepEntry pf opts pmd) rest <;> simp
      · simp only [JSONParser.expandLoop, JSONParser.stepEntry, flatMapExcept,
          if_neg (by simp [hobj] : ¬ k.value_type ≠ ValueType.Object),
          if_neg hd, if_neg (by simp [hd] : ¬ (k.value_type = ValueType.Object ∧ k.depth = pmd % 256))]
        rw [IH]
        cases flatMapExcept (JSONParser.stepEntry pf opts pmd) rest <;> simp [Except.map]
    · simp only [JSONParser.expandLoop, JSONParser.stepEntry, flatMapExcept,
        if_pos (by simp [hobj] : k.value_type ≠ ValueType.Object),
        if_neg (by simp [hobj] : ¬ (k.value_type = ValueType.Object ∧ k.depth = pmd % 256))]
      rw [IH]
      cases flatMapExcept (JSONParser.stepEntry pf opts pmd) rest <;> simp [Except.map]

/-- Claim C1 (corrected), counterexample: on a structure holding one deferred
`Array` container at the boundary depth, `change_depth` to a larger depth
copies the container through unchanged, while the claim (all containers,
`Array` or `Object`, are re-parsed and their children spliced in) predicts the
child entry `/a/0` to appear. -/
theorem C1_counterexample :
    JSONParser.change_depth pfChild Sarr (optsD 2) = POut.value (Except.ok RactC1)
      ∧ JSONParser.changeDepthClaimC1 pfChild Sarr (optsD 2) = Except.ok RclC1
      ∧ RactC1.json ≠ RclC1.json := by
  refine ⟨by decide, by decide, by decide⟩

/-- Claim C1 (corrected): in the expand direction, `change_depth` processes the
entry sequence entry by entry: an entry of `value_type` `Object` (and only
`Object` — `Array` containers are copied through unchanged like scalars) whose
`depth` equals the old `parsing_max_depth` (compared as a `u8`, i.e. mod 256)
and whose value is present is kept and immediately followed by the entries of
a fresh sub-parse of its raw span with `prefix` set to that entry's own
pointer; an `Object` entry at the boundary whose value is absent is dropped;
every other entry is copied through unchanged; the first failing sub-parse
aborts the whole operation with its error. -/
theorem C1_theorem (pf : ParseFn) (s : ParseResult) (opts : ParseOptions)
    (h : s.parsing_max_depth < opts.max_depth) :
    JSONParser.change_depth pf s opts
      = POut.value ((flatMapExcept (JSONParser.stepEntry pf opts s.parsing_max_depth)
          s.json).map (fun js =>
            { json := js,
              max_json_depth := s.max_json_depth,
              parsing_max_depth := opts.max_depth,
              root_value_type := s.root_value_type,
              started_parsing_at := s.started_parsing_at,
              parsing_prefix := s.parsing_prefix,
              root_array_len := s.root_array_len })) := by
  unfold JSONParser.change_depth
  rw [if_pos h, expandLoop_eq_flatMap]
  cases flatMapExcept (JSONParser.stepEntry pf opts s.parsing_max_depth) s.json <;>
    simp [Except.map]

/-- Witness for C1_theorem at `pfChild`, `Sarr`, `optsD 2`. -/
theorem C1_witness :
    Sarr.parsing_max_depth < (optsD 2).max_depth
      ∧ JSONParser.change_depth pfChild Sarr (optsD 2)
        = POut.value ((flatMapExcept
            (JSONParser.stepEntry pfChild (optsD 2) Sarr.parsing_max_depth)
            Sarr.json).map (fun js =>
              { json := js,
                max_json_depth := Sarr.max_json_depth,
                parsing_max_depth := (optsD 2).max_depth,
                root_value_type := Sarr.root_value_type,
                started_parsing_at := Sarr.started_parsing_at,
                parsing_prefix := Sarr.parsing_prefix,
                root_array_len := Sarr.root_array_len })) :=
  ⟨by decide, C1_theorem pfChild Sarr (optsD 2) (by decide)⟩

/-- Claim C3 (corrected), counterexample: requesting `max_depth = 1` on a
structure parsed at depth 10 does not return an unsupported-operation error
value — it hits the `todo!()` branch, i.e. the process aborts. -/
theorem C3_counterexample :
    (optsD 1).max_depth < Sab.parsing_max_depth
      ∧ JSONParser.change_depth pfNone Sab (optsD 1) = POut.panic := by
  refine ⟨by decide, by decide⟩

/-- Claim C3 (corrected): for every requested `max_depth` strictly smaller than
the structure's `parsing_max_depth`, `change_depth` panics via the
unimplemented `todo!()` branch — it does not attempt a lossy reserialization,
and it does not return any result (in particular no error value). -/
theorem C3_theorem (pf : ParseFn) (s : ParseResult) (opts : ParseOptions)
    (h : opts.max_depth < s.parsing_max_depth) :
    JSONParser.change_depth pf s opts = POut.panic := by
  unfold JSONParser.change_depth
  rw [if_neg (by omega), if_pos (by omega)]

/-- Witness for C3_theorem at `pfNone`, `Sab`, `optsD 1`. -/
theorem C3_witness :
    (optsD 1).max_depth < Sab.parsing_max_depth
      ∧ JSONParser.change_depth pfNone Sab (optsD 1) = POut.panic :=
  ⟨by decide, C3_theorem pfNone Sab (optsD 1) (by decide)⟩

/-- Claim C8 (confirmed): `change_depth` with `max_depth` equal to the
structure's current `parsing_max_depth` returns the input structure itself,
entries and metadata untouched. -/
theorem C8_theorem (pf : ParseFn) (s : ParseResult) (opts : ParseOptions)
    (h : opts.max_depth = s.parsing_max_depth) :
    JSONParser.change_depth pf s opts = POut.value (Except.ok s) := by
  unfold JSONParser.change_depth
  rw [if_neg (by omega), if_neg (by omega)]

/-- Witness for C8_theorem at `pfNone`, `Sab`, `optsD 10`. -/
theorem C8_witness :
    (optsD 10).max_depth = Sab.parsing_max_depth
      ∧ JSONParser.change_depth pfNone Sab (optsD 10) = POut.value (Except.ok Sab) :=
  ⟨by decide, C8_theorem pfNone Sab (optsD 10) (by decide)⟩

/-- Claim C10 (confirmed): when `change_depth` succeeds in the expand
direction, the result keeps `max_json_depth`, `root_value_type`,
`started_parsing_at`, `parsing_prefix` and `root_array_len` of the input, and
its `parsing_max_depth` is the requested `max_depth`. -/
theorem C10_theorem (pf : ParseFn) (s : ParseResult) (opts : ParseOptions)
    (r : ParseResult) (h : s.parsing_max_depth < opts.max_depth)
    (hok : JSONParser.change_depth pf s opts = POut.value (Except.ok r)) :
    r.max_json_depth = s.max_json_depth
      ∧ r.root_value_type = s.root_value_type
      ∧ r.started_parsing_at = s.started_parsing_at
      ∧ r.parsing_prefix = s.parsing_prefix
      ∧ r.root_array_len = s.root_array_len
      ∧ r.parsing_max_depth = opts.max_depth := by
  unfold JSONParser.change_depth at hok
  rw [if_pos h] at hok
  cases hE : JSONParser.expandLoop pf s.parsing_max_depth opts s.json with
  | error e => rw [hE] at hok; cases hok
  | ok js =>
    rw [hE] at hok
    cases hok
    exact ⟨rfl, rfl, rfl, rfl, rfl, rfl⟩

/-- Witness for C10_theorem at `pfNone` and a boundary-object-free structure. -/
theorem C10_witness :
    Sone.parsing_max_depth < (optsD 2).max_depth
      ∧ JSONParser.change_depth pfNone Sone (optsD 2)
        = POut.value (Except.ok
            { json := [entA], max_json_depth := 2, parsing_max_depth := 2,
              root_value_type := ValueType.Array, started_parsing_at := none,
              parsing_prefix := none, root_array_len := 1 })
      ∧ (2 : Nat) = Sone.max_json_depth ∧ ValueType.Array = Sone.root_value_type
      ∧ (2 : Nat) = (optsD 2).max_depth :=
  ⟨by decide, by decide,
    (C10_theorem pfNone Sone (optsD 2)
      { json := [entA], max_json_depth := 2, parsing_max_depth := 2,
        root_value_type := ValueType.Array, started_parsing_at := none,
        parsing_prefix := none, root_array_len := 1 }
      (by decide) (by decide)).1,
    (C10_theorem pfNone Sone (optsD 2)
      { json := [entA], max_json_depth := 2, parsing_max_depth := 2,
        root_value_type := ValueType.Array, started_parsing_at := none,
        parsing_prefix := none, root_array_len := 1 }
      (by decide) (by decide)).2.1,
    (C10_theorem pfNone Sone (optsD 2)
      { json := [entA], max_json_depth := 2, parsing_max_depth := 2,
        root_value_type := ValueType.Array, started_parsing_at := none,
        parsing_prefix := none, root_array_len := 1 }
      (by decide) (by decide)).2.2.2.2.2⟩

theorem takeRow_matched (p : Ptr) :
    ∀ l, ∀ e ∈ (JSONParser.takeRow p l).1, p.isPrefixOf e.1.pointer = true
  | [], e, he => absurd he (by simp [JSONParser.takeRow])
  | a :: rest, e, he => by
    by_cases hp : p.isPrefixOf a.1.pointer
    · rw [JSONParser.takeRow, if_pos hp] at he
      rcases List.mem_cons.mp he with h | h
      · exact h ▸ hp
      · exact takeRow_matched p rest e h
    · rw [JSONParser.takeRow, if_neg hp] at he
      exact absurd he (List.not_mem_nil e)

theorem takeRow_matched_sublist (p : Ptr) :
    ∀ l, (JSONParser.takeRow p l).1.Sublist l
  | [] => by simp [JSONParser.takeRow]
  | a :: rest => by
    by_cases hp : p.isPrefixOf a.1.pointer
    · rw [JSONParser.takeRow, if_pos hp]
      exact List.Sublist.cons₂ a (takeRow_matched_sublist p rest)
    · rw [JSONParser.takeRow, if_neg hp]
      exact List.nil_sublist _

theorem takeRow_rest_sublist (p : Ptr) :
    ∀ l, (JSONParser.takeRow p l).2.Sublist l
  | [] => by simp [JSONParser.takeRow]
  | a :: rest => by
    by_cases hp : p.isPrefixOf a.1.pointer
    · rw [JSONParser.takeRow, if_pos hp]
      exact List.Sublist.cons a (takeRow_rest_sublist p rest)
    · rw [JSONParser.takeRow, if_neg hp]

theorem prefix_length_le {p q : Ptr} (h : p.isPrefixOf q = true) :
    p.length ≤ q.length :=
  (List.isPrefixOf_iff_prefix.mp h).length_le

theorem regRow_eq (p : Ptr) :
    ∀ (l : List FlatEntry) (cs : List Column),
      l.foldl (fun cs e => JSONParser.registerColumnAs p cs e.1) cs
        = (rowCands p l).foldl regCand cs
  | [], cs => rfl
  | e :: rest, cs => by
    by_cases hne : e.1.pointer = []
    · rw [List.foldl_cons]
      rw [show JSONParser.registerColumnAs p cs e.1 = cs from
        by rw [JSONParser.registerColumnAs, if_pos hne]]
      rw [regRow_eq p rest cs]
      have hcands : rowCands p (e :: rest) = rowCands p rest := by
        simp [rowCands, hne]
      rw [hcands]
    · rw [List.foldl_cons, regRow_eq p rest _]
      have hcands : rowCands p (e :: rest) = candOf p e.1 :: rowCands p rest := by
        simp [rowCands, hne]
      rw [hcands, List.foldl_cons]
      congr 1
      rw [JSONParser.registerColumnAs, if_neg hne]
      simp [regCand, candOf]

theorem asArrayLoop_eq (pfxFn : Nat → Ptr) :
    ∀ (c : Nat) (stream : List FlatEntry) (rows : List JsonArrayEntries)
      (cols : List Column),
      JSONParser.asArrayLoop pfxFn c stream rows cols
        = POut.value (Except.ok (JSONParser.asRows pfxFn c stream ++ rows,
            sortCols ((JSONParser.asCands pfxFn c stream).foldl regCand cols)))
  | 0, stream, rows, cols => by
    simp [JSONParser.asArrayLoop, JSONParser.asRows, JSONParser.asCands]
  | c + 1, stream, rows, cols => by
    have hguard : ¬ ((JSONParser.takeRow (pfxFn c) stream).1.any
        (fun e => decide (e.1.pointer ≠ [] ∧ e.1.pointer.length < (pfxFn c).length))
          = true) := by
      rw [List.any_eq_true]
      rintro ⟨e, he, hdec⟩
      have hpre := takeRow_matched (pfxFn c) stream e he
      have hlen := prefix_length_le hpre
      have hconj := of_decide_eq_true hdec
      exact absurd hconj.2 (Nat.not_lt.mpr hlen)
    simp only [JSONParser.asArrayLoop]
    rw [if_neg hguard, asArrayLoop_eq pfxFn c _ _ _]
    rw [JSONParser.asRows, JSONParser.asCands]
    simp only [List.append_assoc, List.singleton_append, List.foldl_append]
    rw [regRow_eq]

theorem as_array_eq (s : ParseResult) (h : s.root_value_type = ValueType.Array) :
    JSONParser.as_array s
      = POut.value (Except.ok
          (JSONParser.asRows (JSONParser.rowPrefix s) s.root_array_len s.json.reverse,
           sortCols ((JSONParser.asCands (JSONParser.rowPrefix s) s.root_array_len
              s.json.reverse).foldl regCand []))) := by
  rw [JSONParser.as_array, if_neg (by simp [h]), asArrayLoop_eq, List.append_nil]

theorem sortCols_sorted (l : List Column) : (sortCols l).Pairwise colR :=
  List.sorted_insertionSort colR l

theorem cdaLoop_ok_sorted (pf : ParseFn) (prev : ParseResult) (d : Nat) :
    ∀ (lst accR : List JsonArrayEntries) (accC : List Column)
      (rows : List JsonArrayEntries) (cols : List Column),
      JSONParser.cdaLoop pf prev d lst accR accC
        = POut.value (Except.ok (rows, cols)) → ∃ l, cols = sortCols l
  | [], accR, accC, rows, cols, h => by
    rw [JSONParser.cdaLoop] at h
    injection h with h
    injection h with h
    cases h
    exact ⟨accC, rfl⟩
  | row :: rest, accR, accC, rows, cols, h => by
    rw [JSONParser.cdaLoop] at h
    cases hcd : JSONParser.change_depth pf
        { prev.clone_except_json with json := row.entries }
        { parse_array := false, max_depth := d,
          start_parse_at := none, prefix_ := none } with
    | panic => rw [hcd] at h; cases h
    | value r =>
      cases r with
      | error e =>
        rw [hcd] at h
        injection h with h
        injection h
      | ok result =>
        rw [hcd] at h
        exact cdaLoop_ok_sorted pf prev d rest _ _ rows cols h

/-- Claim C2 (corrected), counterexample: projecting `Sab` (two rows, each
contributing one column, so equal `seen_count`) returns the column discovered
second — the one with the smaller `order` value — last, not first: the
tie-break is `order` descending, not ascending as claimed. -/
theorem C2_counterexample :
    JSONParser.as_array Sab = POut.value (Except.ok (rowsAB, colsAB))
      ∧ colsAB.map Column.seen_count = [1, 1]
      ∧ colsAB.map Column.order = [1, 0]
      ∧ ¬ sortedSpecC2 colsAB := by
  refine ⟨by decide, by decide, by decide, by decide⟩

/-- Claim C2 (corrected): the column schema returned by `as_array` and by
`change_depth_array` is sorted by the comparator of `impl Ord for Column`:
`seen_count` descending and, among columns with equal `seen_count`, `order`
descending (the column with the larger `order` value first). -/
theorem C2_theorem :
    (∀ (s : ParseResult) (rows : List JsonArrayEntries) (cols : List Column),
        JSONParser.as_array s = POut.value (Except.ok (rows, cols)) →
          cols.Pairwise colR)
    ∧ (∀ (pf : ParseFn) (prev : ParseResult) (rws : List JsonArrayEntries)
        (d : Nat) (rows : List JsonArrayEntries) (cols : List Column),
        JSONParser.change_depth_array pf prev rws d
            = POut.value (Except.ok (rows, cols)) →
          cols.Pairwise colR) := by
  constructor
  · intro s rows cols h
    by_cases hroot : s.root_value_type = ValueType.Array
    · rw [as_array_eq s hroot] at h
      injection h with h
      injection h with h
      cases h
      exact sortCols_sorted _
    · rw [JSONParser.as_array, if_pos (by simp [hroot])] at h
      injection h with h
      injection h
  · intro pf prev rws d rows cols h
    rw [JSONParser.change_depth_array] at h
    obtain ⟨l, hl⟩ := cdaLoop_ok_sorted pf prev d rws.reverse [] [] rows cols h
    rw [hl]
    exact sortCols_sorted l

/-- Witness for C2_theorem: both conjuncts applied at concrete inputs. -/
theorem C2_witness : colsAB.Pairwise colR ∧ colsCda1.Pairwise colR :=
  ⟨C2_theorem.1 Sab rowsAB colsAB (by decide),
   C2_theorem.2 pfNone Sone [rowA] 2 [rowA] colsCda1 (by decide)⟩

/-- Claim C4 (code bug): on the same one-row data, `as_array` reports
`seen_count = 1` for the column `/a` (the number of rows it appears in, as the
claim and the spec state), while `change_depth_array` reports `seen_count = 0`
— its first occurrence starts the count at zero instead of one, off by one
with respect to its sibling and to the spec. -/
theorem C4_theorem :
    JSONParser.change_depth_array pfNone Sone [rowA] 2
        = POut.value (Except.ok ([rowA], colsCda1))
      ∧ JSONParser.as_array Sone = POut.value (Except.ok ([rowOneProj], colsOne))
      ∧ colsCda1.map Column.name = [pstr "/a"]
      ∧ colsCda1.map Column.seen_count = [0]
      ∧ colsOne.map Column.name = [pstr "/a"]
      ∧ colsOne.map Column.seen_count = [1]
      ∧ List.countP (fun r => decide (∃ e ∈ r.entries,
            e.1.pointer = JSONParser.rowPrefix Sone r.index ++ pstr "/a")) [rowA] = 1 := by
  refine ⟨by decide, by decide, by decide, by decide, by decide, by decide, by decide⟩

theorem asRows_length (pfxFn : Nat → Ptr) :
    ∀ (c : Nat) (stream : List FlatEntry),
      (JSONParser.asRows pfxFn c stream).length = c
  | 0, _ => rfl
  | c + 1, stream => by
    rw [JSONParser.asRows]
    simp [asRows_length pfxFn c]

theorem buildRowEntries_index (p : Ptr) (i : Nat) :
    ∀ (l : List FlatEntry), ∀ e ∈ JSONParser.buildRowEntries p i l, e.1.index = i := by
  intro l e he
  match l with
  | [] => exact absurd he (List.not_mem_nil e)
  | (k, v) :: rest =>
    rw [JSONParser.buildRowEntries] at he
    rcases List.mem_cons.mp he with h | h
    · rw [h]; rfl
    · rcases List.mem_cons.mp h with h' | h'
      · rw [h']
      · obtain ⟨a, _, ha⟩ := List.mem_map.mp h'
        rw [← ha]

theorem asRows_index (pfxFn : Nat → Ptr) :
    ∀ (c : Nat) (stream : List FlatEntry) (j : Nat)
      (hj : j < (JSONParser.asRows pfxFn c stream).length),
      ((JSONParser.asRows pfxFn c stream).get ⟨j, hj⟩).index = j
        ∧ ∀ e ∈ ((JSONParser.asRows pfxFn c stream).get ⟨j, hj⟩).entries, e.1.index = j
  | 0, stream, j, hj => absurd hj (by simp [JSONParser.asRows])
  | c + 1, stream, j, hj => by
    have hlen : (JSONParser.asRows pfxFn c
        (JSONParser.takeRow (pfxFn c) stream).2).length = c := asRows_length pfxFn c _
    simp only [JSONParser.asRows] at hj ⊢
    simp only [List.get_eq_getElem]
    by_cases hjc : j < c
    · rw [List.getElem_append_left (by rw [hlen]; exact hjc)]
      have := asRows_index pfxFn c (JSONParser.takeRow (pfxFn c) stream).2 j
        (by rw [hlen]; exact hjc)
      simpa using this
    · have hj' : j = c := by
        simp only [List.length_append, hlen, List.length_singleton] at hj
        omega
      subst hj'
      rw [List.getElem_append_right (by rw [hlen])]
      simp only [hlen, Nat.sub_self, List.getElem_singleton]
      exact ⟨trivial, buildRowEntries_index _ _ _⟩

/-- Claim C6 (confirmed): for a structure whose root is an Array, `as_array`
returns exactly `root_array_len` rows, the row at position `j` carries
`index = j` (so rows are in ascending element order), and every pointer key in
that row carries `index = j` as well. -/
theorem C6_theorem (s : ParseResult) (rows : List JsonArrayEntries)
    (cols : List Column) (hroot : s.root_value_type = ValueType.Array)
    (hok : JSONParser.as_array s = POut.value (Except.ok (rows, cols))) :
    rows.length = s.root_array_len
      ∧ ∀ (j : Nat) (hj : j < rows.length),
          (rows.get ⟨j, hj⟩).index = j
            ∧ ∀ e ∈ (rows.get ⟨j, hj⟩).entries, e.1.index = j := by
  rw [as_array_eq s hroot] at hok
  injection hok with hok
  injection hok with hok
  have hrows := congrArg Prod.fst hok
  simp only [] at hrows
  subst hrows
  exact ⟨asRows_length _ _ _, fun j hj => asRows_index _ _ _ j hj⟩

/-- Witness for C6_theorem at `Sab`. -/
theorem C6_witness :
    rowsAB.length = Sab.root_array_len
      ∧ ∀ (j : Nat) (hj : j < rowsAB.length),
          (rowsAB.get ⟨j, hj⟩).index = j
            ∧ ∀ e ∈ (rowsAB.get ⟨j, hj⟩).entries, e.1.index = j :=
  C6_theorem Sab rowsAB colsAB (by decide) (by decide)

/-- Claim C9 (confirmed): `as_array` returns an error value exactly when the
structure's `root_value_type` is not `Array`; on every structure whose root is
an `Array` it returns normally with rows and columns (in particular the
`panic!` branch guarding the prefix length is unreachable, because a matched
entry's pointer always has the row prefix as a prefix). -/
theorem C9_theorem :
    (∀ (s : ParseResult),
        (∃ e, JSONParser.as_array s = POut.value (Except.error e))
          ↔ s.root_value_type ≠ ValueType.Array)
    ∧ (∀ (s : ParseResult), s.root_value_type = ValueType.Array →
        ∃ rows cols,
          JSONParser.as_array s = POut.value (Except.ok (rows, cols))) := by
  constructor
  · intro s
    constructor
    · rintro ⟨e, he⟩ hroot
      rw [as_array_eq s hroot] at he
      injection he with he
      injection he
    · intro hroot
      exact ⟨"Parsed json root is not an array",
        by rw [JSONParser.as_array, if_pos hroot]⟩
  · intro s hroot
    exact ⟨_, _, as_array_eq s hroot⟩

/-- Witness for C9_theorem: error at a non-Array root, success at `Sab`. -/
theorem C9_witness :
    (∃ e, JSONParser.as_array SnotArr = POut.value (Except.error e))
      ∧ ∃ rows cols, JSONParser.as_array Sab = POut.value (Except.ok (rows, cols)) :=
  ⟨(C9_theorem.1 SnotArr).mpr (by decide), C9_theorem.2 Sab (by decide)⟩

theorem asRows_entries_shape (pfxFn : Nat → Ptr) :
    ∀ (c : Nat) (stream : List FlatEntry) (r : JsonArrayEntries),
      r ∈ JSONParser.asRows pfxFn c stream →
      ∃ m : List FlatEntry, m.Sublist stream
        ∧ (∀ e ∈ m, (pfxFn r.index).isPrefixOf e.1.pointer = true)
        ∧ r.entries = JSONParser.buildRowEntries (pfxFn r.index) r.index m
  | 0, stream, r, hr => absurd hr (by simp [JSONParser.asRows])
  | c + 1, stream, r, hr => by
    simp only [JSONParser.asRows] at hr
    rcases List.mem_append.mp hr with h | h
    · obtain ⟨m, hsub, hpre, hent⟩ := asRows_entries_shape pfxFn c _ r h
      exact ⟨m, hsub.trans (takeRow_rest_sublist _ _), hpre, hent⟩
    · have hr' := List.mem_singleton.mp h
      subst hr'
      exact ⟨(JSONParser.takeRow (pfxFn c) stream).1,
        takeRow_matched_sublist _ _,
        fun e he => takeRow_matched _ _ e he,
        rfl⟩

/-- Claim C5 (corrected), counterexample: element 0 of `Sgap` has no entries;
its row comes back empty, with no synthetic `"<prefix>/#"` entry at all,
whereas the claim promises exactly one per element including entry-less ones. -/
theorem C5_counterexample :
    JSONParser.as_array Sgap = POut.value (Except.ok (rowsGap, colsGap))
      ∧ rowsGap.map (fun r => r.entries.countP (fun e =>
          decide (e.1.pointer = JSONParser.rowPrefix Sgap r.index ++ pstr "/#")))
        = [0, 1] := by
  refine ⟨by decide, by decide⟩

/-- Claim C5 (corrected): in every row produced by `as_array` (over a
`#`-free structure), the synthetic `"<prefix>/#"` entry appears exactly once if
the element contributed at least one entry — it is emitted together with the
first matched entry — and not at all if the row is empty; when present it has
`value_type` `Number`, value the decimal string of the element index, and
`index` equal to the row's index. -/
theorem C5_theorem (s : ParseResult) (rows : List JsonArrayEntries)
    (cols : List Column) (hroot : s.root_value_type = ValueType.Array)
    (hhash : ∀ e ∈ s.json, ¬ '#' ∈ e.1.pointer)
    (hok : JSONParser.as_array s = POut.value (Except.ok (rows, cols))) :
    ∀ r ∈ rows,
      r.entries.countP (fun e =>
          decide (e.1.pointer = JSONParser.rowPrefix s r.index ++ pstr "/#"))
        = (if r.entries.isEmpty then 0 else 1)
      ∧ ∀ e ∈ r.entries,
          e.1.pointer = JSONParser.rowPrefix s r.index ++ pstr "/#" →
            e.1.value_type = ValueType.Number
              ∧ e.2 = some (Nat.repr r.index)
              ∧ e.1.index = r.index := by
  rw [as_array_eq s hroot] at hok
  injection hok with hok
  injection hok with hok
  have hrows := congrArg Prod.fst hok
  simp only [] at hrows
  subst hrows
  intro r hr
  obtain ⟨m, hsub, hpre, hent⟩ :=
    asRows_entries_shape (JSONParser.rowPrefix s) s.root_array_len s.json.reverse r hr
  have hhash' : ∀ e ∈ m, ¬ '#' ∈ e.1.pointer := fun e he =>
    hhash e (List.mem_reverse.mp (hsub.subset he))
  have hps : pstr "/#" = ['/', '#'] := by decide
  have htgt : '#' ∈ JSONParser.rowPrefix s r.index ++ pstr "/#" := by
    rw [hps]
    exact List.mem_append.mpr (Or.inr (by decide))
  cases m with
  | nil =>
    rw [hent]
    exact ⟨by simp [JSONParser.buildRowEntries],
      fun e he _ => absurd he (by simp [JSONParser.buildRowEntries])⟩
  | cons kv tl =>
    obtain ⟨k, v⟩ := kv
    have hpk : (JSONParser.rowPrefix s r.index).isPrefixOf k.pointer = true :=
      hpre (k, v) (List.mem_cons_self _ _)
    have htake : k.pointer.take (JSONParser.rowPrefix s r.index).length
        = JSONParser.rowPrefix s r.index :=
      (List.prefix_iff_eq_take.mp (List.isPrefixOf_iff_prefix.mp hpk)).symm
    have hsynth : k.pointer.take (JSONParser.rowPrefix s r.index).length ++ ['/', '#']
        = JSONParser.rowPrefix s r.index ++ pstr "/#" := by
      rw [htake, hps]
    have hkne : k.pointer ≠ JSONParser.rowPrefix s r.index ++ pstr "/#" := by
      intro heq
      exact hhash' (k, v) (List.mem_cons_self _ _) (heq ▸ htgt)
    have htlne : ∀ e ∈ tl.map (fun e => ({ e.1 with index := r.index }, e.2)),
        e.1.pointer ≠ JSONParser.rowPrefix s r.index ++ pstr "/#" := by
      intro e he heq
      obtain ⟨a, ha, hae⟩ := List.mem_map.mp he
      have : a.1.pointer = e.1.pointer := by rw [← hae]
      exact hhash' a (List.mem_cons_of_mem _ ha) ((this.trans heq) ▸ htgt)
    constructor
    · rw [hent]
      simp only [JSONParser.buildRowEntries, PointerKey.from_pointer_and_index,
        List.countP_cons, List.isEmpty_cons, if_false]
      have h1 : (decide (k.pointer.take (JSONParser.rowPrefix s r.index).length
          ++ ['/', '#'] = JSONParser.rowPrefix s r.index ++ pstr "/#")) = true :=
        decide_eq_true hsynth
      have h2 : (decide (k.pointer = JSONParser.rowPrefix s r.index ++ pstr "/#"))
          = false := decide_eq_false hkne
      have h3 : List.countP (fun e =>
          decide (e.1.pointer = JSONParser.rowPrefix s r.index ++ pstr "/#"))
          (tl.map (fun e => ({ e.1 with index := r.index }, e.2))) = 0 := by
        rw [List.countP_eq_zero]
        intro e he hcontra
        exact htlne e he (of_decide_eq_true hcontra)
      simp [h1, h2, h3]
    · rw [hent]
      intro e he heq
      simp only [JSONParser.buildRowEntries] at he
      rcases List.mem_cons.mp he with h | h
      · rw [h]
        exact ⟨rfl, rfl, rfl⟩
      · rcases List.mem_cons.mp h with h' | h'
        · rw [h'] at heq
          exact absurd heq hkne
        · exact absurd heq (htlne e h')

/-- Witness for C5_theorem at `Sab`. -/
theorem C5_witness :
    (∀ e ∈ Sab.json, ¬ '#' ∈ e.1.pointer)
      ∧ ∀ r ∈ rowsAB,
        r.entries.countP (fun e =>
            decide (e.1.pointer = JSONParser.rowPrefix Sab r.index ++ pstr "/#"))
          = (if r.entries.isEmpty then 0 else 1)
        ∧ ∀ e ∈ r.entries,
            e.1.pointer = JSONParser.rowPrefix Sab r.index ++ pstr "/#" →
              e.1.value_type = ValueType.Number
                ∧ e.2 = some (Nat.repr r.index)
                ∧ e.1.index = r.index :=
  ⟨by decide, C5_theorem Sab rowsAB colsAB (by decide) (by decide) (by decide)⟩

theorem find_node_semantics (r : JsonArrayEntries)
    (hnd : (r.entries.map (fun e => e.1.pointer)).Nodup) (t : Ptr) :
    (match r.find_node_at t with
      | some e => e.2.isSome
      | none => false) = true
      ↔ ∃ e ∈ r.entries, e.1.pointer = t ∧ e.2 ≠ none := by
  unfold JsonArrayEntries.find_node_at
  cases hf : r.entries.find? (fun e => decide (e.1.pointer = t)) with
  | none =>
    constructor
    · intro h
      cases h
    · rintro ⟨e, he, hpt, hnn⟩
      have := List.find?_eq_none.mp hf e he
      exact absurd (decide_eq_true hpt) this
  | some e0 =>
    have he0mem := List.mem_of_find?_eq_some hf
    have hp0 := List.find?_some hf
    simp only [decide_eq_true_eq] at hp0
    have he0pt : e0.1.pointer = t := hp0
    constructor
    · intro h
      exact ⟨e0, he0mem, he0pt, Option.isSome_iff_ne_none.mp h⟩
    · rintro ⟨e, he, hpt, hnn⟩
      have heq : e = e0 :=
        List.inj_on_of_nodup_map hnd he he0mem (hpt.trans he0pt.symm)
      rw [← heq]
      exact Option.isSome_iff_ne_none.mpr hnn

/-- Claim C7 (confirmed): `filter_non_null_column` returns exactly the rows
(in input order, the input untouched — the result is a sublist of the input)
for which every listed relative pointer, made absolute with the prefix and the
row's own `index`, is present among the row's entries with a non-`None` value;
with an empty pointer list every row is kept.  The existential reading of
"present with a non-None value" matches the code's first-match lookup because
pointers are unique within a row (the stated Flat Structure invariant). -/
theorem C7_theorem (rows : List JsonArrayEntries) (pfx : Ptr) (ptrs : List Ptr)
    (huniq : ∀ r ∈ rows, (r.entries.map (fun e => e.1.pointer)).Nodup) :
    JSONParser.filter_non_null_column rows pfx ptrs
        = rows.filter (fun r => decide (∀ p ∈ ptrs, ∃ e ∈ r.entries,
            e.1.pointer = pfx ++ '/' :: natChars r.index ++ p ∧ e.2 ≠ none))
      ∧ (ptrs = [] → JSONParser.filter_non_null_column rows pfx ptrs = rows)
      ∧ (JSONParser.filter_non_null_column rows pfx ptrs).Sublist rows := by
  refine ⟨?_, ?_, ?_⟩
  · rw [JSONParser.filter_non_null_column]
    apply List.filter_congr
    intro r hrmem
    have hnd := huniq r hrmem
    by_cases hp : ∀ p ∈ ptrs, ∃ e ∈ r.entries,
        e.1.pointer = pfx ++ '/' :: natChars r.index ++ p ∧ e.2 ≠ none
    · rw [decide_eq_true hp, List.all_eq_true]
      intro p hpmem
      exact (find_node_semantics r hnd _).mpr (hp p hpmem)
    · rw [decide_eq_false hp]
      cases hall : ptrs.all (fun p =>
          match r.find_node_at (pfx ++ '/' :: natChars r.index ++ p) with
          | some e => e.2.isSome
          | none => false) with
      | false => rfl
      | true =>
        exact (hp (fun p hpmem => (find_node_semantics r hnd _).mp
          (List.all_eq_true.mp hall p hpmem))).elim
  · intro hnil
    subst hnil
    rw [JSONParser.filter_non_null_column]
    simp
  · rw [JSONParser.filter_non_null_column]
    exact List.filter_sublist _

/-- Witness for C7_theorem at one row with entry `/0/a`, prefix `""` and the
single required pointer `/a`. -/
theorem C7_witness :
    (∀ r ∈ [rowA], (r.entries.map (fun e => e.1.pointer)).Nodup)
      ∧ (JSONParser.filter_non_null_column [rowA] [] [pstr "/a"]
          = [rowA].filter (fun r => decide (∀ p ∈ [pstr "/a"], ∃ e ∈ r.entries,
              e.1.pointer = [] ++ '/' :: natChars r.index ++ p ∧ e.2 ≠ none))
        ∧ (([pstr "/a"] : List Ptr) = [] →
            JSONParser.filter_non_null_column [rowA] [] [pstr "/a"] = [rowA])
        ∧ (JSONParser.filter_non_null_column [rowA] [] [pstr "/a"]).Sublist [rowA]) :=
  ⟨by decide, C7_theorem [rowA] [] [pstr "/a"] (by decide)⟩
